import Mathlib

/-!
# Verification of `DynamicPriorityQueue` (csbence/DynamicPriorityQueue)

A shallow embedding of `src/include/dynamic_priority_queue.hpp` and proofs
about its operations.

Modelling conventions:

* The heap storage `std::vector<T> queue` is a `List T`; `queue.size()` is
  `List.length`.  Reading `queue[i]` is `q[i]?`; writing `queue[i] = x` is
  `setElem q i x`, which returns `none` when `i` is out of bounds
  (`std::vector::operator[]` out of range is undefined behaviour, so every
  operation result is wrapped in `Option`, with `none` marking a run that hit
  undefined behaviour or a failed `assert`).
* `std::size_t` indices are `Nat`; the sentinel
  `std::numeric_limits<std::size_t>::max()` is the 64-bit value `SENTINEL`.
* The position accessor (`IndexFunction`) used by the engine is modelled as a
  total map `T → Nat` with pointwise functional update (`setIx`), matching the
  intrusive accessor of the test suite.  The `NonIntrusiveIndexFunction`
  class, whose behaviour differs on absent keys, is modelled separately as an
  association list; key equivalence under `Hash`/`Equal` is modelled as
  equality on `T`.
* C++ exceptions (`std::overflow_error`, `std::underflow_error`) and the
  spec's `NotQueued` failure are the constructors of `QErr`; an operation
  that throws before mutating returns the unchanged state next to the error.
* The C++ `while` loops of `siftUp`/`siftDown` are recursive functions taking
  an explicit iteration bound `fuel`; the bound passed by the wrappers is
  proved sufficient in the loop lemmas, since the current index strictly
  decreases (respectively increases) on every iteration.
-/

set_option maxHeartbeats 1000000

namespace DynamicPriorityQueue

/-- `std::numeric_limits<std::size_t>::max()` on a 64-bit platform: the
reserved "not in the queue" position. -/
def SENTINEL : Nat := 2 ^ 64 - 1

/-- The engine's view of an index function: each item's recorded position. -/
abbrev Ix (T : Type) := T → Nat

/-- `indexFunction(item) = v`: pointwise update of the position map. -/
def setIx {T : Type} [DecidableEq T] (ix : Ix T) (t : T) (v : Nat) : Ix T :=
  fun u => if u = t then v else ix u

/-- `queue[i] = x` on a `std::vector` of size `q.length`: defined only in
bounds; an out-of-bounds write is undefined behaviour, returned as `none`. -/
def setElem {T : Type} (q : List T) (i : Nat) (x : T) : Option (List T) :=
  if i < q.length then some (q.set i x) else none

/-- `(i - 1) / 2`, the binary-heap parent index used by the header. -/
def parentOf (i : Nat) : Nat := (i - 1) / 2

/-! ## The non-intrusive index function (`NonIntrusiveIndexFunction`) -/

/-- The auxiliary mapping owned by `NonIntrusiveIndexFunction`, modelled as an
association list from items to positions. -/
structure NonIntrusiveIndexFunction (T : Type) where
  indexMap : List (T × Nat)

/-- `indexMap.find(item)`: the entry stored for `item`, if any. -/
def findEntry {T : Type} [DecidableEq T] : List (T × Nat) → T → Option Nat
  | [], _ => none
  | (k, v) :: rest, t => if k = t then some v else findEntry rest t

/-- `indexMap[item] = v` through `std::unordered_map::operator[]`: overwrite
the entry for `item`, inserting one if absent. -/
def storeEntry {T : Type} [DecidableEq T] : List (T × Nat) → T → Nat → List (T × Nat)
  | [], t, v => [(t, v)]
  | (k, w) :: rest, t, v =>
    if k = t then (k, v) :: rest else (k, w) :: storeEntry rest t v

/-- The `const` call operator: `find` the item; absent items read as the
sentinel. -/
def getPos {T : Type} [DecidableEq T] (m : NonIntrusiveIndexFunction T) (item : T) : Nat :=
  match findEntry m.indexMap item with
  | none => SENTINEL
  | some v => v

/-- Writing a position through the non-`const` call operator
(`indexMap[item]` followed by assignment). -/
def setPos {T : Type} [DecidableEq T] (m : NonIntrusiveIndexFunction T) (item : T)
    (v : Nat) : NonIntrusiveIndexFunction T :=
  ⟨storeEntry m.indexMap item v⟩

/-- Reading a position through the non-`const` call operator: it returns
`indexMap[item]`, and `std::unordered_map::operator[]` value-initialises the
mapped `std::size_t` to `0` when `item` is absent.  The result is the value
read together with the possibly-extended map. -/
def accessPos {T : Type} [DecidableEq T] (m : NonIntrusiveIndexFunction T)
    (item : T) : Nat × NonIntrusiveIndexFunction T :=
  match findEntry m.indexMap item with
  | some v => (v, m)
  | none => (0, ⟨storeEntry m.indexMap item 0⟩)

/-- The guard of `insertOrUpdate` as the engine executes it with a
non-intrusive accessor: `indexFunction(item) == max()` evaluated through the
mutable call operator.  `true` selects the `push` branch, `false` the
`update` branch. -/
def insertOrUpdateGuard {T : Type} [DecidableEq T] (m : NonIntrusiveIndexFunction T)
    (item : T) : Bool × NonIntrusiveIndexFunction T :=
  let r := accessPos m item
  (decide (r.1 = SENTINEL), r.2)

/-! ## The queue engine (`DynamicPriorityQueue`) -/

/-- The user-visible failures: `std::overflow_error` on a full `push`,
`std::underflow_error` on an empty `pop`/`top`, and the spec's `NotQueued`
for `remove` on an unpositioned item. -/
inductive QErr : Type where
  | capacityExceeded : QErr
  | emptyQueue : QErr
  | notQueued : QErr
deriving DecidableEq

/-- The queue state: the backing vector and the position accessor. -/
structure PQ (T : Type) where
  queue : List T
  index : Ix T

/-- The body of `DynamicPriorityQueue::siftUp`.  One iteration per unit of
`fuel`; the wrapper passes enough fuel, since `currentIndex` strictly
decreases each iteration. -/
def siftUpLoop {T : Type} [DecidableEq T] (cmp : T → T → Int) :
    Nat → List T → Ix T → Nat → T → Option (List T × Ix T)
  | 0, _, _, _, _ => none
  | fuel + 1, q, ix, cur, item =>
    if 0 < cur then
      let parentIndex := parentOf cur
      match q[parentIndex]? with
      | none => none
      | some parentItem =>
        if cmp item parentItem ≥ 0 then
          -- break, then the final placement after the loop
          (setElem q cur item).map (fun q2 => (q2, setIx ix item cur))
        else
          -- move the parent down and update its index
          match setElem q cur parentItem with
          | none => none
          | some q2 => siftUpLoop cmp fuel q2 (setIx ix parentItem cur) parentIndex item
    else
      (setElem q cur item).map (fun q2 => (q2, setIx ix item cur))

/-- `siftUp(index, item)`: run the loop from `index`.  The loop runs at most
`index` iterations before `currentIndex` reaches `0`, plus the final
placement. -/
def siftUp {T : Type} [DecidableEq T] (cmp : T → T → Int) (q : List T) (ix : Ix T)
    (index : Nat) (item : T) : Option (List T × Ix T) :=
  siftUpLoop cmp (index + 1) q ix index item

/-- The body of `DynamicPriorityQueue::siftDown`.  The three branches spell
out the `childIndex`/`childItem` mutation of the C++ loop: right child
present and smaller, right child present but not smaller, no right child. -/
def siftDownLoop {T : Type} [DecidableEq T] (cmp : T → T → Int) :
    Nat → List T → Ix T → Nat → T → Option (List T × Ix T)
  | 0, _, _, _, _ => none
  | fuel + 1, q, ix, cur, item =>
    if cur < q.length / 2 then
      let childIndex := cur * 2 + 1
      match q[childIndex]? with
      | none => none
      | some childItem =>
        match q[childIndex + 1]? with
        | some rightItem =>
          if cmp childItem rightItem > 0 then
            if cmp item rightItem ≤ 0 then
              (setElem q cur item).map (fun q2 => (q2, setIx ix item cur))
            else
              match setElem q cur rightItem with
              | none => none
              | some q2 =>
                siftDownLoop cmp fuel q2 (setIx ix rightItem cur) (childIndex + 1) item
          else
            if cmp item childItem ≤ 0 then
              (setElem q cur item).map (fun q2 => (q2, setIx ix item cur))
            else
              match setElem q cur childItem with
              | none => none
              | some q2 => siftDownLoop cmp fuel q2 (setIx ix childItem cur) childIndex item
        | none =>
          if cmp item childItem ≤ 0 then
            (setElem q cur item).map (fun q2 => (q2, setIx ix item cur))
          else
            match setElem q cur childItem with
            | none => none
            | some q2 => siftDownLoop cmp fuel q2 (setIx ix childItem cur) childIndex item
    else
      (setElem q cur item).map (fun q2 => (q2, setIx ix item cur))

/-- `siftDown(index, item)`: run the loop from `index`.  `currentIndex`
strictly increases and stays below `queue.size()`, so `queue.size() + 1`
iterations always suffice. -/
def siftDown {T : Type} [DecidableEq T] (cmp : T → T → Int) (q : List T) (ix : Ix T)
    (index : Nat) (item : T) : Option (List T × Ix T) :=
  siftDownLoop cmp (q.length + 1) q ix index item

/-- `push(T&& item)` with `MAX_CAPACITY = maxCapacity`.  On the capacity
check the exception is thrown before any mutation.  Otherwise the item is
appended; a first item is placed directly at index `0`, and any later item is
sifted from `queue.size()` — the value *after* `push_back`, one past the new
item's slot. -/
def push {T : Type} [DecidableEq T] (cmp : T → T → Int) (maxCapacity : Nat) (s : PQ T)
    (item : T) : Option (Except QErr Unit × PQ T) :=
  if s.queue.length = maxCapacity then
    some (.error .capacityExceeded, s)
  else if s.queue.length = 0 then
    some (.ok (), ⟨[item], setIx s.index item 0⟩)
  else
    let q2 := s.queue ++ [item]
    match siftUp cmp q2 s.index q2.length item with
    | none => none
    | some (q3, ix3) => some (.ok (), ⟨q3, ix3⟩)

/-- `pop()`.  After the emptiness check it saves `queue[0]`, reads
`queue[queue.size()]` — one past the last element — into `last_item`, shrinks
the vector, sifts down when elements remain, checks the
`assert(indexFunction(top_item) == 0)`, resets the saved root's position to
the sentinel and returns it. -/
def pop {T : Type} [DecidableEq T] (cmp : T → T → Int) (s : PQ T) :
    Option (Except QErr T × PQ T) :=
  if s.queue.length = 0 then
    some (.error .emptyQueue, s)
  else
    match s.queue[0]? with
    | none => none
    | some topItem =>
      match s.queue[s.queue.length]? with
      | none => none
      | some lastItem =>
        let q1 := s.queue.dropLast
        match (if q1.length ≠ 0 then siftDown cmp q1 s.index 0 lastItem
               else some (q1, s.index)) with
        | none => none
        | some (q2, ix2) =>
          if ix2 topItem = 0 then
            some (.ok topItem, ⟨q2, setIx ix2 topItem SENTINEL⟩)
          else none

/-- `top()`: the minimum item, after the emptiness check; no mutation. -/
def top {T : Type} (s : PQ T) : Option (Except QErr T × PQ T) :=
  if s.queue.length = 0 then
    some (.error .emptyQueue, s)
  else
    match s.queue[0]? with
    | none => none
    | some t => some (.ok t, s)

/-- `clear()`: reset every stored item's position to the sentinel, then empty
the vector. -/
def clear {T : Type} [DecidableEq T] (s : PQ T) : PQ T :=
  ⟨[], s.queue.foldl (fun ix t => setIx ix t SENTINEL) s.index⟩

/-- `update(T&& item)`: read the position, `assert` it is not the sentinel
(modelled as `none`), sift up from it, and sift down only when the recorded
position did not change. -/
def update {T : Type} [DecidableEq T] (cmp : T → T → Int) (s : PQ T) (item : T) :
    Option (PQ T) :=
  let index := s.index item
  if index = SENTINEL then none
  else
    match siftUp cmp s.queue s.index index item with
    | none => none
    | some (q1, ix1) =>
      if ix1 item = index then
        match siftDown cmp q1 ix1 (ix1 item) item with
        | none => none
        | some (q2, ix2) => some ⟨q2, ix2⟩
      else some ⟨q1, ix1⟩

/-- `size()`. -/
def size {T : Type} (s : PQ T) : Nat := s.queue.length

/-- `empty()`. -/
def isEmpty {T : Type} (s : PQ T) : Bool := s.queue.length = 0

/-- Modelled from the spec: the header under `src` has no `remove` member
even though its own test suite calls one, so this operation is taken from
§4.3 of the specification: look up the item's position `p`, failing with
`NotQueued` when it is the sentinel; if `p` is the last occupied slot, shrink
by one and reset the position; otherwise move the last element into slot `p`
(by sifting with it), shrink by one, sift up from `p` with the moved element
and sift down instead when it did not relocate, then reset the removed item's
position to the sentinel.  An inconsistent accessor (a non-sentinel position
out of range) is undefined, modelled as `none`. -/
def remove {T : Type} [DecidableEq T] (cmp : T → T → Int) (s : PQ T) (item : T) :
    Option (Except QErr (PQ T)) :=
  let p := s.index item
  if p = SENTINEL then some (.error .notQueued)
  else if s.queue.length ≤ p then none
  else if p = s.queue.length - 1 then
    some (.ok ⟨s.queue.dropLast, setIx s.index item SENTINEL⟩)
  else
    match s.queue[s.queue.length - 1]? with
    | none => none
    | some lastItem =>
      let q1 := s.queue.dropLast
      match siftUp cmp q1 s.index p lastItem with
      | none => none
      | some (q2, ix2) =>
        if ix2 lastItem = p then
          match siftDown cmp q2 ix2 (ix2 lastItem) lastItem with
          | none => none
          | some (q3, ix3) => some (.ok ⟨q3, setIx ix3 item SENTINEL⟩)
        else some (.ok ⟨q2, setIx ix2 item SENTINEL⟩)

/-! ## The comparator contract and the heap predicate -/

/-- The three-way comparator induced by a strict weak ordering, as produced
by `ThreeWayComparatorAdapter`: antisymmetric sign and transitive
non-positivity. -/
structure IsLinearCmp {T : Type} (cmp : T → T → Int) : Prop where
  antisymm : ∀ a b, cmp a b = -cmp b a
  le_trans : ∀ a b c, cmp a b ≤ 0 → cmp b c ≤ 0 → cmp a c ≤ 0

/-- The heap-order invariant of §8: every non-root position is no smaller
than its parent under the comparator. -/
def IsHeap {T : Type} (cmp : T → T → Int) (q : List T) : Prop :=
  ∀ i a b, 0 < i → q[parentOf i]? = some a → q[i]? = some b → cmp a b ≤ 0

/-- The heap-order invariant on every edge not touching position `p` (the
"hole" being sifted). -/
def HeapExcept {T : Type} (cmp : T → T → Int) (q : List T) (p : Nat) : Prop :=
  ∀ i a b, 0 < i → i ≠ p → parentOf i ≠ p →
    q[parentOf i]? = some a → q[i]? = some b → cmp a b ≤ 0

/-- The integer three-way comparator on `Nat` used by the concrete test
scenarios (the shape of the test suite's `ItemCompare`). -/
def cmpNat (a b : Nat) : Int :=
  if a < b then -1 else if b < a then 1 else 0

/-- The empty queue over `Nat`: default-constructed state. -/
def emptyPQNat : PQ Nat := ⟨[], fun _ => SENTINEL⟩

/-- The empty non-intrusive index function over `Nat`. -/
def emptyNI : NonIntrusiveIndexFunction Nat := ⟨[]⟩

theorem IsLinearCmp.refl {T : Type} {cmp : T → T → Int} (h : IsLinearCmp cmp) (a : T) :
    cmp a a = 0 := by
  have := h.antisymm a a
  omega

theorem IsLinearCmp.flip_le {T : Type} {cmp : T → T → Int} (h : IsLinearCmp cmp)
    {a b : T} (hab : 0 ≤ cmp a b) : cmp b a ≤ 0 := by
  have := h.antisymm a b
  omega

theorem IsLinearCmp.flip_lt {T : Type} {cmp : T → T → Int} (h : IsLinearCmp cmp)
    {a b : T} (hab : cmp a b < 0) : 0 < cmp b a := by
  have := h.antisymm a b
  omega

theorem cmpNat_linear : IsLinearCmp cmpNat := by
  constructor
  · intro a b
    unfold cmpNat
    split <;> split <;> omega
  · intro a b c hab hbc
    unfold cmpNat at *
    split at hab <;> split at hbc <;> omega

/-- `storeEntry` really inserts or overwrites: a subsequent lookup of the
same key sees the stored value. -/
theorem findEntry_storeEntry_self {T : Type} [DecidableEq T] :
    ∀ (l : List (T × Nat)) (t : T) (v : Nat), findEntry (storeEntry l t v) t = some v
  | [], t, v => by simp [storeEntry, findEntry]
  | (k, w) :: rest, t, v => by
    by_cases h : k = t
    · simp [storeEntry, findEntry, h]
    · simp [storeEntry, findEntry, h, findEntry_storeEntry_self rest t v]

/-! ## Helper lemmas about indices and single writes -/

theorem parentOf_lt {i : Nat} (h : 0 < i) : parentOf i < i := by
  unfold parentOf
  omega

theorem parentOf_child_left (i : Nat) : parentOf (i * 2 + 1) = i := by
  unfold parentOf
  omega

theorem parentOf_child_right (i : Nat) : parentOf (i * 2 + 2) = i := by
  unfold parentOf
  omega

theorem child_cases {c p : Nat} (hc : 0 < c) (h : parentOf c = p) :
    c = p * 2 + 1 ∨ c = p * 2 + 2 := by
  unfold parentOf at h
  omega

theorem child_gt {c p : Nat} (hc : 0 < c) (h : parentOf c = p) : p < c := by
  unfold parentOf at h
  omega

theorem setElem_eq_some {T : Type} {q : List T} {i : Nat} (x : T) (h : i < q.length) :
    setElem q i x = some (q.set i x) := by
  simp [setElem, h]

theorem setIx_self {T : Type} [DecidableEq T] (ix : Ix T) (t : T) (v : Nat) :
    setIx ix t v t = v := by
  simp [setIx]

/-- Placing `item` into the hole at `cur` yields a heap, provided every edge
away from the hole holds, the hole's children are no smaller than `item`, and
the hole's parent is no larger than `item`. -/
theorem place_heap {T : Type} {cmp : T → T → Int} {q : List T} {cur : Nat} {item : T}
    (hcur : cur < q.length)
    (hB : HeapExcept cmp q cur)
    (hC : ∀ c b, 0 < c → parentOf c = cur → q[c]? = some b → cmp item b ≤ 0)
    (hP : ∀ a, 0 < cur → q[parentOf cur]? = some a → cmp a item ≤ 0) :
    IsHeap cmp (q.set cur item) := by
  intro i a b hi hpa hib
  by_cases hic : i = cur
  · subst hic
    have hpne : i ≠ parentOf i := fun h => absurd (parentOf_lt hi) (by omega)
    rw [List.getElem?_set_ne hpne] at hpa
    rw [List.getElem?_set_self hcur] at hib
    cases hib
    exact hP a hi hpa
  · by_cases hpic : parentOf i = cur
    · rw [hpic, List.getElem?_set_self hcur] at hpa
      cases hpa
      rw [List.getElem?_set_ne (Ne.symm hic)] at hib
      exact hC i b hi hpic hib
    · rw [List.getElem?_set_ne (fun h => hpic h.symm)] at hpa
      rw [List.getElem?_set_ne (Ne.symm hic)] at hib
      exact hB i a b hi hic hpic hpa hib

/-- One iteration of `siftUp` that moves the parent down into the hole
preserves the loop invariant, with the hole now at the parent. -/
theorem siftUp_step {T : Type} {cmp : T → T → Int} (hL : IsLinearCmp cmp)
    {q : List T} {cur : Nat} {item pItem : T}
    (h0 : 0 < cur) (hcur : cur < q.length)
    (hpe : q[parentOf cur]? = some pItem)
    (hmove : cmp item pItem < 0)
    (hB : HeapExcept cmp q cur)
    (hD : ∀ a c b, 0 < c → parentOf c = cur →
      q[parentOf cur]? = some a → q[c]? = some b → cmp a b ≤ 0) :
    HeapExcept cmp (q.set cur pItem) (parentOf cur) ∧
    (∀ c b, 0 < c → parentOf c = parentOf cur → (q.set cur pItem)[c]? = some b →
      cmp item b ≤ 0) ∧
    (∀ a c b, 0 < c → parentOf c = parentOf cur →
      (q.set cur pItem)[parentOf (parentOf cur)]? = some a →
      (q.set cur pItem)[c]? = some b → cmp a b ≤ 0) := by
  have hplt : parentOf cur < cur := parentOf_lt h0
  refine ⟨?_, ?_, ?_⟩
  · intro i a b hi hip hpip hpa hib
    by_cases hic : i = cur
    · exact absurd (hic ▸ rfl : parentOf i = parentOf cur) hpip
    · by_cases hpic : parentOf i = cur
      · rw [hpic, List.getElem?_set_self hcur] at hpa
        cases hpa
        rw [List.getElem?_set_ne (Ne.symm hic)] at hib
        exact hD pItem i b hi hpic hpe hib
      · rw [List.getElem?_set_ne (fun h => hpic h.symm)] at hpa
        rw [List.getElem?_set_ne (Ne.symm hic)] at hib
        exact hB i a b hi hic hpic hpa hib
  · intro c b hc hpc hcb
    by_cases hcc : c = cur
    · subst hcc
      rw [List.getElem?_set_self hcur] at hcb
      cases hcb
      exact le_of_lt hmove
    · rw [List.getElem?_set_ne (Ne.symm hcc)] at hcb
      have hmb : cmp pItem b ≤ 0 := by
        refine hB c pItem b hc hcc (by omega) ?_ hcb
        rw [hpc]
        exact hpe
      exact hL.le_trans item pItem b (le_of_lt hmove) hmb
  · intro a c b hc hpc hpa hcb
    have hppne : parentOf (parentOf cur) ≠ cur := by
      have := parentOf_lt h0
      have : parentOf (parentOf cur) ≤ parentOf cur := by
        unfold parentOf
        omega
      omega
    rw [List.getElem?_set_ne (fun h => hppne h.symm)] at hpa
    have hap : cmp a pItem ≤ 0 := by
      by_cases hp0 : 0 < parentOf cur
      · exact hB (parentOf cur) a pItem hp0 (by omega) hppne hpa hpe
      · -- the hole's parent is the root: its own parent slot is itself
        have hz : parentOf cur = 0 := by omega
        rw [hz] at hpa hpe
        have : parentOf 0 = 0 := by unfold parentOf; omega
        rw [this] at hpa
        rw [hpa] at hpe
        cases hpe
        exact le_of_eq (hL.refl pItem)
    by_cases hcc : c = cur
    · subst hcc
      rw [List.getElem?_set_self hcur] at hcb
      cases hcb
      exact hap
    · rw [List.getElem?_set_ne (Ne.symm hcc)] at hcb
      have hpb : cmp pItem b ≤ 0 := by
        refine hB c pItem b hc hcc (by omega) ?_ hcb
        rw [hpc]
        exact hpe
      exact hL.le_trans a pItem b hap hpb

/-- The `siftUp` loop: with the hole invariant at `cur`, the loop succeeds
within its fuel, preserves the length, ends with `item` stored at its
recorded position, and either places `item` back at `cur` without moving it
(recording that the parent was no larger than `item`), or moves it strictly
up and restores the full heap invariant. -/
theorem siftUpLoop_main {T : Type} [DecidableEq T] {cmp : T → T → Int}
    (hL : IsLinearCmp cmp) (item : T) :
    ∀ (fuel cur : Nat) (q : List T) (ix : Ix T),
    cur < fuel → cur < q.length →
    HeapExcept cmp q cur →
    (∀ a c b, 0 < cur → 0 < c → parentOf c = cur →
      q[parentOf cur]? = some a → q[c]? = some b → cmp a b ≤ 0) →
    ∃ q2 ix2, siftUpLoop cmp fuel q ix cur item = some (q2, ix2) ∧
      q2.length = q.length ∧
      q2[ix2 item]? = some item ∧ ix2 item ≤ cur ∧
      ((q2 = q.set cur item ∧ ix2 = setIx ix item cur ∧
        (∀ a, 0 < cur → q[parentOf cur]? = some a → cmp a item ≤ 0)) ∨
       (IsHeap cmp q2 ∧ ix2 item < cur)) := by
  intro fuel
  induction fuel with
  | zero =>
    intro cur q ix hf hcur hB hD
    exact absurd hf (Nat.not_lt_zero cur)
  | succ fuel IH =>
    intro cur q ix hf hcur hB hD
    by_cases h0 : 0 < cur
    · have hplt : parentOf cur < cur := parentOf_lt h0
      have hple : parentOf cur < q.length := lt_trans hplt hcur
      obtain ⟨pItem, hpe⟩ : ∃ a, q[parentOf cur]? = some a :=
        ⟨_, List.getElem?_eq_getElem hple⟩
      by_cases hge : cmp item pItem ≥ 0
      · refine ⟨q.set cur item, setIx ix item cur, ?_, by simp, ?_, ?_, ?_⟩
        · simp only [siftUpLoop, if_pos h0, hpe]
          rw [if_pos hge, setElem_eq_some item hcur]
          rfl
        · rw [setIx_self]
          exact List.getElem?_set_self hcur
        · rw [setIx_self]
        · refine Or.inl ⟨rfl, rfl, ?_⟩
          intro a _ ha
          rw [hpe] at ha
          cases ha
          exact hL.flip_le hge
      · have hlt : cmp item pItem < 0 := lt_of_not_ge hge
        obtain ⟨hB2, hC2, hD2⟩ :=
          siftUp_step hL h0 hcur hpe hlt hB (fun a c b => hD a c b h0)
        have hlen : (q.set cur pItem).length = q.length := by simp
        obtain ⟨q2, ix2, heq2, hlen2, hitem2, hle2, hdisj2⟩ :=
          IH (parentOf cur) (q.set cur pItem) (setIx ix pItem cur)
            (by omega) (by rw [hlen]; exact hple) hB2
            (fun a c b _ hc hpc hpa hcb => hD2 a c b hc hpc hpa hcb)
        refine ⟨q2, ix2, ?_, hlen2.trans hlen, hitem2, by omega, Or.inr ⟨?_, by omega⟩⟩
        · simp only [siftUpLoop, if_pos h0, hpe]
          rw [if_neg hge, setElem_eq_some pItem hcur]
          exact heq2
        · rcases hdisj2 with ⟨hq2eq, _, hbreak⟩ | ⟨hheap, _⟩
          · rw [hq2eq]
            exact place_heap (by rw [hlen]; exact hple) hB2 hC2 hbreak
          · exact hheap
    · have hz : cur = 0 := by omega
      subst hz
      refine ⟨q.set 0 item, setIx ix item 0, ?_, by simp, ?_, by rw [setIx_self], ?_⟩
      · simp only [siftUpLoop, if_neg h0]
        rw [setElem_eq_some item hcur]
        rfl
      · rw [setIx_self]
        exact List.getElem?_set_self hcur
      · exact Or.inl ⟨rfl, rfl, fun a ha => absurd ha (by omega)⟩

/-- One iteration of `siftDown` that moves the chosen smaller child `citem`
(at index `ci`) up into the hole preserves the loop invariant, with the hole
now at `ci`. -/
theorem siftDown_step {T : Type} {cmp : T → T → Int} (hL : IsLinearCmp cmp)
    {q : List T} {cur ci : Nat} {citem item : T}
    (hcur : cur < q.length) (hchild : parentOf ci = cur) (hci0 : 0 < ci)
    (hcie : q[ci]? = some citem)
    (hmin : ∀ c b, 0 < c → parentOf c = cur → q[c]? = some b → cmp citem b ≤ 0)
    (hmove : cmp citem item < 0)
    (hB : HeapExcept cmp q cur)
    (hD : ∀ a c b, 0 < cur → 0 < c → parentOf c = cur →
      q[parentOf cur]? = some a → q[c]? = some b → cmp a b ≤ 0) :
    HeapExcept cmp (q.set cur citem) ci ∧
    (∀ a, 0 < ci → (q.set cur citem)[parentOf ci]? = some a → cmp a item ≤ 0) ∧
    (∀ a c b, 0 < ci → 0 < c → parentOf c = ci →
      (q.set cur citem)[parentOf ci]? = some a → (q.set cur citem)[c]? = some b →
      cmp a b ≤ 0) := by
  have hgt : cur < ci := child_gt hci0 hchild
  refine ⟨?_, ?_, ?_⟩
  · intro i a b hi hi_ne hpi_ne hpa hib
    by_cases hic : i = cur
    · have h0cur : 0 < cur := hic ▸ hi
      have hplt : parentOf cur < cur := parentOf_lt h0cur
      rw [hic] at hpa hib
      rw [List.getElem?_set_ne (by omega : cur ≠ parentOf cur)] at hpa
      rw [List.getElem?_set_self hcur] at hib
      cases hib
      exact hD a ci citem h0cur hci0 hchild hpa hcie
    · by_cases hpic : parentOf i = cur
      · rw [hpic, List.getElem?_set_self hcur] at hpa
        cases hpa
        rw [List.getElem?_set_ne (Ne.symm hic)] at hib
        exact hmin i b hi hpic hib
      · rw [List.getElem?_set_ne (fun h => hpic h.symm)] at hpa
        rw [List.getElem?_set_ne (Ne.symm hic)] at hib
        exact hB i a b hi hic hpic hpa hib
  · intro a _ hpa
    rw [hchild, List.getElem?_set_self hcur] at hpa
    cases hpa
    exact le_of_lt hmove
  · intro a c b _ hc hpc hpa hcb
    rw [hchild, List.getElem?_set_self hcur] at hpa
    cases hpa
    have hcgt : ci < c := child_gt hc hpc
    rw [List.getElem?_set_ne (by omega : cur ≠ c)] at hcb
    refine hB c citem b hc (by omega) (by omega) ?_ hcb
    rw [hpc]
    exact hcie

/-- Shared tail of one `siftDown` iteration, once the smaller child
`(ci, citem)` has been selected: either `item` fits at `cur` and is placed
there, or the child moves up and the loop continues from `ci`. -/
theorem siftDownTail {T : Type} [DecidableEq T] {cmp : T → T → Int}
    (hL : IsLinearCmp cmp) {item : T} {fuel : Nat}
    (IH : ∀ (cur : Nat) (q : List T) (ix : Ix T),
      q.length - cur < fuel → cur < q.length →
      HeapExcept cmp q cur →
      (∀ a, 0 < cur → q[parentOf cur]? = some a → cmp a item ≤ 0) →
      (∀ a c b, 0 < cur → 0 < c → parentOf c = cur →
        q[parentOf cur]? = some a → q[c]? = some b → cmp a b ≤ 0) →
      ∃ q2 ix2, siftDownLoop cmp fuel q ix cur item = some (q2, ix2) ∧
        q2.length = q.length ∧ IsHeap cmp q2 ∧
        q2[ix2 item]? = some item ∧ cur ≤ ix2 item)
    {cur ci : Nat} {q : List T} (ix : Ix T) {citem : T}
    (hf : q.length - cur < fuel + 1)
    (hcur : cur < q.length) (hci : ci < q.length)
    (hchild : parentOf ci = cur) (hci0 : 0 < ci)
    (hcie : q[ci]? = some citem)
    (hmin : ∀ c b, 0 < c → parentOf c = cur → q[c]? = some b → cmp citem b ≤ 0)
    (hB : HeapExcept cmp q cur)
    (hP : ∀ a, 0 < cur → q[parentOf cur]? = some a → cmp a item ≤ 0)
    (hD : ∀ a c b, 0 < cur → 0 < c → parentOf c = cur →
      q[parentOf cur]? = some a → q[c]? = some b → cmp a b ≤ 0) :
    ∃ q2 ix2,
      (if cmp item citem ≤ 0 then
        (setElem q cur item).map (fun q3 => (q3, setIx ix item cur))
      else
        match setElem q cur citem with
        | none => none
        | some q3 => siftDownLoop cmp fuel q3 (setIx ix citem cur) ci item)
        = some (q2, ix2) ∧
      q2.length = q.length ∧ IsHeap cmp q2 ∧
      q2[ix2 item]? = some item ∧ cur ≤ ix2 item := by
  have hgt : cur < ci := child_gt hci0 hchild
  by_cases hle : cmp item citem ≤ 0
  · refine ⟨q.set cur item, setIx ix item cur, ?_, by simp, ?_, ?_, ?_⟩
    · rw [if_pos hle, setElem_eq_some item hcur]
      rfl
    · exact place_heap hcur hB
        (fun c b hc hpc hcb => hL.le_trans item citem b hle (hmin c b hc hpc hcb)) hP
    · rw [setIx_self]
      exact List.getElem?_set_self hcur
    · rw [setIx_self]
  · have hmove : cmp citem item < 0 := by
      have h1 : 0 < cmp item citem := lt_of_not_ge hle
      have h2 := hL.antisymm item citem
      omega
    obtain ⟨hB2, hP2, hD2⟩ := siftDown_step hL hcur hchild hci0 hcie hmin hmove hB hD
    obtain ⟨q2, ix2, heq2, hlen2, hheap2, hitem2, hle2⟩ :=
      IH ci (q.set cur citem) (setIx ix citem cur)
        (by simp only [List.length_set]; omega) (by simpa using hci) hB2
        (fun a h0 hpa => hP2 a h0 hpa)
        (fun a c b h0 hc hpc hpa hcb => hD2 a c b h0 hc hpc hpa hcb)
    refine ⟨q2, ix2, ?_, by simpa using hlen2, hheap2, hitem2, by omega⟩
    rw [if_neg hle, setElem_eq_some citem hcur]
    exact heq2

/-- The `siftDown` loop: with the hole invariant at `cur`, the loop succeeds
within its fuel, preserves the length, restores the full heap invariant, and
ends with `item` stored at its recorded position, at or below `cur`. -/
theorem siftDownLoop_main {T : Type} [DecidableEq T] {cmp : T → T → Int}
    (hL : IsLinearCmp cmp) (item : T) :
    ∀ (fuel cur : Nat) (q : List T) (ix : Ix T),
    q.length - cur < fuel → cur < q.length →
    HeapExcept cmp q cur →
    (∀ a, 0 < cur → q[parentOf cur]? = some a → cmp a item ≤ 0) →
    (∀ a c b, 0 < cur → 0 < c → parentOf c = cur →
      q[parentOf cur]? = some a → q[c]? = some b → cmp a b ≤ 0) →
    ∃ q2 ix2, siftDownLoop cmp fuel q ix cur item = some (q2, ix2) ∧
      q2.length = q.length ∧ IsHeap cmp q2 ∧
      q2[ix2 item]? = some item ∧ cur ≤ ix2 item := by
  intro fuel
  induction fuel with
  | zero =>
    intro cur q ix hf hcur hB hP hD
    exact absurd hf (by omega)
  | succ fuel IH =>
    intro cur q ix hf hcur hB hP hD
    by_cases hhalf : cur < q.length / 2
    · have hc1 : cur * 2 + 1 < q.length := by omega
      obtain ⟨childItem, hc1e⟩ : ∃ a, q[cur * 2 + 1]? = some a :=
        ⟨_, List.getElem?_eq_getElem hc1⟩
      have hpl : parentOf (cur * 2 + 1) = cur := parentOf_child_left cur
      have hee : cur * 2 + 1 + 1 = cur * 2 + 2 := by omega
      rcases hre : q[cur * 2 + 1 + 1]? with _ | rightItem
      · have hmin : ∀ c b, 0 < c → parentOf c = cur → q[c]? = some b →
            cmp childItem b ≤ 0 := by
          intro c b hc hpc hcb
          rcases child_cases hc hpc with h | h
          · rw [h, hc1e] at hcb
            cases hcb
            exact le_of_eq (hL.refl childItem)
          · rw [h, ← hee, hre] at hcb
            cases hcb
        obtain ⟨q2, ix2, heq, hlen, hheap, hitem, hle⟩ :=
          siftDownTail hL IH ix hf hcur hc1 hpl (by omega) hc1e hmin hB hP hD
        refine ⟨q2, ix2, ?_, hlen, hheap, hitem, hle⟩
        simp only [siftDownLoop, if_pos hhalf, hc1e, hre]
        exact heq
      · obtain ⟨hc2, -⟩ := List.getElem?_eq_some_iff.mp hre
        by_cases hcg : cmp childItem rightItem > 0
        · have hmin : ∀ c b, 0 < c → parentOf c = cur → q[c]? = some b →
              cmp rightItem b ≤ 0 := by
            intro c b hc hpc hcb
            rcases child_cases hc hpc with h | h
            · rw [h, hc1e] at hcb
              cases hcb
              have := hL.antisymm childItem rightItem
              omega
            · rw [h, ← hee, hre] at hcb
              cases hcb
              exact le_of_eq (hL.refl rightItem)
          obtain ⟨q2, ix2, heq, hlen, hheap, hitem, hle⟩ :=
            siftDownTail hL IH ix hf hcur hc2
              (hee ▸ parentOf_child_right cur) (by omega) hre hmin hB hP hD
          refine ⟨q2, ix2, ?_, hlen, hheap, hitem, hle⟩
          simp only [siftDownLoop, if_pos hhalf, hc1e, hre]
          rw [if_pos hcg]
          exact heq
        · have hmin : ∀ c b, 0 < c → parentOf c = cur → q[c]? = some b →
              cmp childItem b ≤ 0 := by
            intro c b hc hpc hcb
            rcases child_cases hc hpc with h | h
            · rw [h, hc1e] at hcb
              cases hcb
              exact le_of_eq (hL.refl childItem)
            · rw [h, ← hee, hre] at hcb
              cases hcb
              omega
          obtain ⟨q2, ix2, heq, hlen, hheap, hitem, hle⟩ :=
            siftDownTail hL IH ix hf hcur hc1 hpl (by omega) hc1e hmin hB hP hD
          refine ⟨q2, ix2, ?_, hlen, hheap, hitem, hle⟩
          simp only [siftDownLoop, if_pos hhalf, hc1e, hre]
          rw [if_neg hcg]
          exact heq
    · refine ⟨q.set cur item, setIx ix item cur, ?_, by simp, ?_, ?_, ?_⟩
      · simp only [siftDownLoop, if_neg hhalf]
        rw [setElem_eq_some item hcur]
        rfl
      · refine place_heap hcur hB ?_ hP
        intro c b hc hpc hcb
        obtain ⟨hcl, -⟩ := List.getElem?_eq_some_iff.mp hcb
        rcases child_cases hc hpc with h | h <;> omega
      · rw [setIx_self]
        exact List.getElem?_set_self hcur
      · rw [setIx_self]

theorem setElem_eq_some_iff {T : Type} {q : List T} {i : Nat} {x : T} {q2 : List T} :
    setElem q i x = some q2 ↔ i < q.length ∧ q2 = q.set i x := by
  unfold setElem
  split
  case isTrue h => simp [h, eq_comm]
  case isFalse h => simp [h]

/-- `HeapExcept` at the hole is insensitive to the value stored in the
hole. -/
theorem heapExcept_set_hole {T : Type} {cmp : T → T → Int} {q : List T} {p : Nat}
    (x : T) (hB : HeapExcept cmp q p) : HeapExcept cmp (q.set p x) p := by
  intro i a b hi hip hpip hpa hib
  rw [List.getElem?_set_ne (fun h => hpip h.symm)] at hpa
  rw [List.getElem?_set_ne (Ne.symm hip)] at hib
  exact hB i a b hi hip hpip hpa hib

/-- The hole's grandparent-to-children bound is likewise insensitive to the
hole value. -/
theorem holeChildren_set_hole {T : Type} {cmp : T → T → Int} {q : List T} {p : Nat}
    (x : T)
    (hD : ∀ a c b, 0 < p → 0 < c → parentOf c = p →
      q[parentOf p]? = some a → q[c]? = some b → cmp a b ≤ 0) :
    ∀ a c b, 0 < p → 0 < c → parentOf c = p →
      (q.set p x)[parentOf p]? = some a → (q.set p x)[c]? = some b → cmp a b ≤ 0 := by
  intro a c b h0 hc hpc hpa hcb
  have hplt := parentOf_lt h0
  have hcgt := child_gt hc hpc
  rw [List.getElem?_set_ne (by omega : p ≠ parentOf p)] at hpa
  rw [List.getElem?_set_ne (by omega : p ≠ c)] at hcb
  exact hD a c b h0 hc hpc hpa hcb

theorem isHeap_single {T : Type} (cmp : T → T → Int) (x : T) : IsHeap cmp [x] := by
  intro i a b hi hpa hib
  obtain ⟨hlt, -⟩ := List.getElem?_eq_some_iff.mp hib
  simp at hlt
  omega

theorem isHeap_pair {T : Type} {cmp : T → T → Int} {x y : T} (h : cmp x y ≤ 0) :
    IsHeap cmp [x, y] := by
  intro i a b hi hpa hib
  obtain ⟨hlt, -⟩ := List.getElem?_eq_some_iff.mp hib
  simp at hlt
  have hi1 : i = 1 := by omega
  subst hi1
  have hp0 : parentOf 1 = 0 := by unfold parentOf; omega
  rw [hp0] at hpa
  have hxa : some x = some a := hpa
  cases hxa
  have hyb : some y = some b := hib
  cases hyb
  exact h

/-- The `siftUp` loop never stores `x` anywhere, provided `x` is not the
sifted item and occurred at most in the hole before. -/
theorem siftUpLoop_not_mem {T : Type} [DecidableEq T] {cmp : T → T → Int}
    {item x : T} (hxi : item ≠ x) :
    ∀ (fuel cur : Nat) (q : List T) (ix : Ix T) (q2 : List T) (ix2 : Ix T),
    (∀ j : Nat, j ≠ cur → q[j]? ≠ some x) →
    siftUpLoop cmp fuel q ix cur item = some (q2, ix2) →
    ∀ j : Nat, q2[j]? ≠ some x := by
  intro fuel
  induction fuel with
  | zero =>
    intro cur q ix q2 ix2 hq heq
    simp [siftUpLoop] at heq
  | succ fuel IH =>
    intro cur q ix q2 ix2 hq heq
    simp only [siftUpLoop] at heq
    by_cases h0 : 0 < cur
    · rw [if_pos h0] at heq
      rcases hpe : q[parentOf cur]? with _ | pItem
      · simp only [hpe] at heq
        exact Option.noConfusion heq
      · simp only [hpe] at heq
        have hpne : pItem ≠ x := by
          intro h
          exact hq (parentOf cur) (by have := parentOf_lt h0; omega) (h ▸ hpe)
        by_cases hge : cmp item pItem ≥ 0
        · rw [if_pos hge] at heq
          rcases hse : setElem q cur item with _ | q3
          · simp [hse] at heq
          · rw [hse] at heq
            simp only [Option.map_some'] at heq
            injection heq with hpair
            injection hpair with hq2 hix2
            subst hq2
            obtain ⟨hcl, hq3⟩ := setElem_eq_some_iff.mp hse
            subst hq3
            intro j hjx
            by_cases hj : j = cur
            · rw [hj, List.getElem?_set_self hcl] at hjx
              cases hjx
              exact hxi rfl
            · rw [List.getElem?_set_ne (Ne.symm hj)] at hjx
              exact hq j hj hjx
        · rw [if_neg hge] at heq
          rcases hse : setElem q cur pItem with _ | q3
          · simp [hse] at heq
          · rw [hse] at heq
            obtain ⟨hcl, hq3⟩ := setElem_eq_some_iff.mp hse
            subst hq3
            refine IH (parentOf cur) (q.set cur pItem) (setIx ix pItem cur) q2 ix2 ?_ heq
            intro j hj hjx
            by_cases hjc : j = cur
            · rw [hjc, List.getElem?_set_self hcl] at hjx
              cases hjx
              exact hpne rfl
            · rw [List.getElem?_set_ne (Ne.symm hjc)] at hjx
              exact hq j hjc hjx
    · rw [if_neg h0] at heq
      rcases hse : setElem q cur item with _ | q3
      · simp [hse] at heq
      · rw [hse] at heq
        simp only [Option.map_some'] at heq
        injection heq with hpair
        injection hpair with hq2 hix2
        subst hq2
        obtain ⟨hcl, hq3⟩ := setElem_eq_some_iff.mp hse
        subst hq3
        intro j hjx
        by_cases hj : j = cur
        · rw [hj, List.getElem?_set_self hcl] at hjx
          cases hjx
          exact hxi rfl
        · rw [List.getElem?_set_ne (Ne.symm hj)] at hjx
          exact hq j hj hjx

/-- Tail of one `siftDown` iteration for the `not_mem` invariant. -/
theorem siftDownTail_not_mem {T : Type} [DecidableEq T] {cmp : T → T → Int}
    {item x : T} (hxi : item ≠ x) {fuel : Nat}
    (IH : ∀ (cur : Nat) (q : List T) (ix : Ix T) (q2 : List T) (ix2 : Ix T),
      (∀ j : Nat, j ≠ cur → q[j]? ≠ some x) →
      siftDownLoop cmp fuel q ix cur item = some (q2, ix2) →
      ∀ j : Nat, q2[j]? ≠ some x)
    {cur ci : Nat} {q : List T} (ix : Ix T) {citem : T} {q2 : List T} {ix2 : Ix T}
    (hcine : ci ≠ cur) (hcie : q[ci]? = some citem)
    (hq : ∀ j : Nat, j ≠ cur → q[j]? ≠ some x)
    (heq : (if cmp item citem ≤ 0 then
        (setElem q cur item).map (fun q3 => (q3, setIx ix item cur))
      else
        match setElem q cur citem with
        | none => none
        | some q3 => siftDownLoop cmp fuel q3 (setIx ix citem cur) ci item)
        = some (q2, ix2)) :
    ∀ j : Nat, q2[j]? ≠ some x := by
  have hcne : citem ≠ x := by
    intro h
    exact hq ci hcine (h ▸ hcie)
  by_cases hle : cmp item citem ≤ 0
  · rw [if_pos hle] at heq
    rcases hse : setElem q cur item with _ | q3
    · simp [hse] at heq
    · rw [hse] at heq
      simp only [Option.map_some'] at heq
      injection heq with hpair
      injection hpair with hq2 hix2
      subst hq2
      obtain ⟨hcl, hq3⟩ := setElem_eq_some_iff.mp hse
      subst hq3
      intro j hjx
      by_cases hj : j = cur
      · rw [hj, List.getElem?_set_self hcl] at hjx
        cases hjx
        exact hxi rfl
      · rw [List.getElem?_set_ne (Ne.symm hj)] at hjx
        exact hq j hj hjx
  · rw [if_neg hle] at heq
    rcases hse : setElem q cur citem with _ | q3
    · simp [hse] at heq
    · rw [hse] at heq
      obtain ⟨hcl, hq3⟩ := setElem_eq_some_iff.mp hse
      subst hq3
      refine IH ci (q.set cur citem) (setIx ix citem cur) q2 ix2 ?_ heq
      intro j hj hjx
      by_cases hjc : j = cur
      · rw [hjc, List.getElem?_set_self hcl] at hjx
        cases hjx
        exact hcne rfl
      · rw [List.getElem?_set_ne (Ne.symm hjc)] at hjx
        exact hq j hjc hjx

/-- The `siftDown` loop never stores `x` anywhere, provided `x` is not the
sifted item and occurred at most in the hole before. -/
theorem siftDownLoop_not_mem {T : Type} [DecidableEq T] {cmp : T → T → Int}
    {item x : T} (hxi : item ≠ x) :
    ∀ (fuel cur : Nat) (q : List T) (ix : Ix T) (q2 : List T) (ix2 : Ix T),
    (∀ j : Nat, j ≠ cur → q[j]? ≠ some x) →
    siftDownLoop cmp fuel q ix cur item = some (q2, ix2) →
    ∀ j : Nat, q2[j]? ≠ some x := by
  intro fuel
  induction fuel with
  | zero =>
    intro cur q ix q2 ix2 hq heq
    simp [siftDownLoop] at heq
  | succ fuel IH =>
    intro cur q ix q2 ix2 hq heq
    simp only [siftDownLoop] at heq
    by_cases hhalf : cur < q.length / 2
    · rw [if_pos hhalf] at heq
      rcases hc1e : q[cur * 2 + 1]? with _ | childItem
      · simp only [hc1e] at heq
        exact Option.noConfusion heq
      · simp only [hc1e] at heq
        have hc1ne : cur * 2 + 1 ≠ cur := by omega
        rcases hre : q[cur * 2 + 1 + 1]? with _ | rightItem
        · simp only [hre] at heq
          exact siftDownTail_not_mem hxi IH ix hc1ne hc1e hq heq
        · simp only [hre] at heq
          by_cases hcg : cmp childItem rightItem > 0
          · rw [if_pos hcg] at heq
            exact siftDownTail_not_mem hxi IH ix (by omega) hre hq heq
          · rw [if_neg hcg] at heq
            exact siftDownTail_not_mem hxi IH ix hc1ne hc1e hq heq
    · rw [if_neg hhalf] at heq
      rcases hse : setElem q cur item with _ | q3
      · simp [hse] at heq
      · rw [hse] at heq
        simp only [Option.map_some'] at heq
        injection heq with hpair
        injection hpair with hq2 hix2
        subst hq2
        obtain ⟨hcl, hq3⟩ := setElem_eq_some_iff.mp hse
        subst hq3
        intro j hjx
        by_cases hj : j = cur
        · rw [hj, List.getElem?_set_self hcl] at hjx
          cases hjx
          exact hxi rfl
        · rw [List.getElem?_set_ne (Ne.symm hj)] at hjx
          exact hq j hj hjx


/-- C8: `update(item)` on an item recorded at a valid position `p` (not the
sentinel) first sifts up from `p` and sifts down from `p` exactly when the
recorded position is still `p` afterwards — the very branch structure of
`update` — and, provided the array was a heap before the item's priority
changed in place (it is a heap with some previous value `old` in slot `p`),
the operation succeeds, the heap-order invariant is restored, the length is
unchanged, and the item is stored at its recorded position. -/
theorem c8_update_restores_heap {T : Type} [DecidableEq T] {cmp : T → T → Int}
    (hL : IsLinearCmp cmp) (s : PQ T) (item old : T) (p : Nat)
    (hix : s.index item = p) (hp : p < s.queue.length)
    (hsen : s.queue.length ≤ SENTINEL)
    (hheap : IsHeap cmp (s.queue.set p old)) :
    ∃ s2 : PQ T, update cmp s item = some s2 ∧
      IsHeap cmp s2.queue ∧
      s2.queue.length = s.queue.length ∧
      s2.queue[s2.index item]? = some item := by
  have hpnes : p ≠ SENTINEL := by omega
  have hB : HeapExcept cmp s.queue p := by
    intro i a b hi hip hpip hpa hib
    exact hheap i a b hi
      ((List.getElem?_set_ne (fun h => hpip h.symm)).trans hpa)
      ((List.getElem?_set_ne (Ne.symm hip)).trans hib)
  have hold : (s.queue.set p old)[p]? = some old := List.getElem?_set_self hp
  have hD : ∀ a c b, 0 < p → 0 < c → parentOf c = p →
      s.queue[parentOf p]? = some a → s.queue[c]? = some b → cmp a b ≤ 0 := by
    intro a c b h0 hc hpc hpa hcb
    have hplt := parentOf_lt h0
    have hcgt := child_gt hc hpc
    have h1 : cmp a old ≤ 0 :=
      hheap p a old h0 ((List.getElem?_set_ne (by omega : p ≠ parentOf p)).trans hpa) hold
    have h2 : cmp old b ≤ 0 := by
      refine hheap c old b hc ?_ ((List.getElem?_set_ne (by omega : p ≠ c)).trans hcb)
      rw [hpc]
      exact hold
    exact hL.le_trans a old b h1 h2
  obtain ⟨q1, ix1, heq1, hlen1, hitem1, hle1, hdisj1⟩ :=
    siftUpLoop_main hL item (p + 1) p s.queue s.index (by omega) hp hB hD
  rcases hdisj1 with ⟨hq1eq, hix1eq, hbreak⟩ | ⟨hheap1, hlt1⟩
  · -- the item did not move: sift down from p
    have hix1item : ix1 item = p := by rw [hix1eq, setIx_self]
    have hB2 : HeapExcept cmp q1 p := by
      rw [hq1eq]
      exact heapExcept_set_hole item hB
    have hP2 : ∀ a, 0 < p → q1[parentOf p]? = some a → cmp a item ≤ 0 := by
      intro a h0 hpa
      have hplt := parentOf_lt h0
      rw [hq1eq, List.getElem?_set_ne (by omega : p ≠ parentOf p)] at hpa
      exact hbreak a h0 hpa
    have hD2 : ∀ a c b, 0 < p → 0 < c → parentOf c = p →
        q1[parentOf p]? = some a → q1[c]? = some b → cmp a b ≤ 0 := by
      rw [hq1eq]
      exact holeChildren_set_hole item hD
    obtain ⟨q2, ix2, heq2, hlen2, hheap2, hitem2, hle2⟩ :=
      siftDownLoop_main hL item (q1.length + 1) p q1 ix1 (by omega) (by omega) hB2 hP2 hD2
    refine ⟨⟨q2, ix2⟩, ?_, hheap2, hlen2.trans hlen1, hitem2⟩
    show update cmp s item = some ⟨q2, ix2⟩
    simp only [update, hix, siftUp, siftDown]
    rw [if_neg hpnes]
    simp only [heq1, hix1item, if_pos]
    simp only [heq2]
  · -- the item moved strictly up: no sift down
    have hne : ix1 item ≠ p := by omega
    refine ⟨⟨q1, ix1⟩, ?_, hheap1, hlen1, hitem1⟩
    show update cmp s item = some ⟨q1, ix1⟩
    simp only [update, hix, siftUp]
    rw [if_neg hpnes]
    simp only [heq1]
    rw [if_neg hne]

/-- C8 witness: the queue `[5, 3]` whose item `3` (recorded at position `1`)
held a `10` before its priority changed in place; `update` succeeds and
restores the heap. -/
theorem c8_update_restores_heap_witness :
    ∃ s2 : PQ Nat,
      update cmpNat ⟨[5, 3], fun t => if t = 3 then 1 else if t = 5 then 0 else SENTINEL⟩ 3
        = some s2 ∧
      IsHeap cmpNat s2.queue ∧
      s2.queue.length = 2 ∧
      s2.queue[s2.index 3]? = some 3 := by
  refine c8_update_restores_heap cmpNat_linear _ 3 10 1 rfl (by simp) (by decide) ?_
  exact isHeap_pair (by decide)

/-- C5 (against the spec-modelled `remove`, which is absent from the header
under `src`): `remove(item)` fails with `NotQueued` exactly when the item's
recorded position is the sentinel; on an item recorded at a consistent
position inside a duplicate-free heap it succeeds, removes the item from its
(arbitrary) position, restores the heap-order invariant, resets the item's
position to the sentinel, and decreases the size by exactly one. -/
theorem c5_remove_spec {T : Type} [DecidableEq T] {cmp : T → T → Int}
    (hL : IsLinearCmp cmp) (s : PQ T) (item : T) :
    (s.index item = SENTINEL → remove cmp s item = some (.error .notQueued)) ∧
    (∀ p : Nat, s.index item = p → p < s.queue.length →
      s.queue.length ≤ SENTINEL → s.queue[p]? = some item →
      IsHeap cmp s.queue → s.queue.Nodup →
      ∃ s2 : PQ T, remove cmp s item = some (.ok s2) ∧
        IsHeap cmp s2.queue ∧
        s2.queue.length = s.queue.length - 1 ∧
        s2.index item = SENTINEL ∧
        item ∉ s2.queue) := by
  constructor
  · intro h
    simp [remove, h]
  · intro p hix hp hsen hmem hheap hnd
    have hpnes : p ≠ SENTINEL := by omega
    have hnle : ¬(s.queue.length ≤ p) := by omega
    have hq_only : ∀ j : Nat, j ≠ p → s.queue[j]? ≠ some item := by
      intro j hj hjx
      obtain ⟨hjl, hjv⟩ := List.getElem?_eq_some_iff.mp hjx
      obtain ⟨hpl, hpv⟩ := List.getElem?_eq_some_iff.mp hmem
      exact hj ((hnd.getElem_inj_iff).mp (hjv.trans hpv.symm))
    by_cases hlast : p = s.queue.length - 1
    · -- removing the last occupied slot: shrink and reset
      refine ⟨⟨s.queue.dropLast, setIx s.index item SENTINEL⟩, ?_, ?_, ?_, ?_, ?_⟩
      · simp only [remove, hix]
        rw [if_neg hpnes, if_neg hnle, if_pos hlast]
      · intro i a b hi hpa hib
        rw [List.getElem?_dropLast] at hpa hib
        by_cases hi2 : i < s.queue.length - 1
        · rw [if_pos hi2] at hib
          have hpi2 : parentOf i < s.queue.length - 1 := by
            have := parentOf_lt hi
            omega
          rw [if_pos hpi2] at hpa
          exact hheap i a b hi hpa hib
        · rw [if_neg hi2] at hib
          exact Option.noConfusion hib
      · simp
      · exact setIx_self _ _ _
      · intro hmem2
        obtain ⟨j, hj⟩ := List.mem_iff_getElem?.mp hmem2
        rw [List.getElem?_dropLast] at hj
        by_cases hj2 : j < s.queue.length - 1
        · rw [if_pos hj2] at hj
          exact hq_only j (by omega) hj
        · rw [if_neg hj2] at hj
          exact Option.noConfusion hj
    · -- removing an inner slot: move the last element into the hole
      have hplt2 : p < s.queue.length - 1 := by omega
      have hll : s.queue.length - 1 < s.queue.length := by omega
      obtain ⟨lastItem, hlaste⟩ : ∃ a, s.queue[s.queue.length - 1]? = some a :=
        ⟨_, List.getElem?_eq_getElem hll⟩
      have hlastne : lastItem ≠ item := by
        intro h
        exact hq_only (s.queue.length - 1) (by omega) (h ▸ hlaste)
      have hq1len : s.queue.dropLast.length = s.queue.length - 1 := by simp
      have hq1get : ∀ j : Nat, j < s.queue.length - 1 →
          s.queue.dropLast[j]? = s.queue[j]? := by
        intro j hj
        rw [List.getElem?_dropLast, if_pos hj]
      have hq1_only : ∀ j : Nat, j ≠ p → s.queue.dropLast[j]? ≠ some item := by
        intro j hj hjx
        rw [List.getElem?_dropLast] at hjx
        by_cases hj2 : j < s.queue.length - 1
        · rw [if_pos hj2] at hjx
          exact hq_only j hj hjx
        · rw [if_neg hj2] at hjx
          exact Option.noConfusion hjx
      have hB1 : HeapExcept cmp s.queue.dropLast p := by
        intro i a b hi hip hpip hpa hib
        have hil : i < s.queue.length - 1 := by
          have := (List.getElem?_eq_some_iff.mp hib).1
          omega
        rw [hq1get i hil] at hib
        rw [hq1get (parentOf i) (by have := parentOf_lt hi; omega)] at hpa
        exact hheap i a b hi hpa hib
      have hD1 : ∀ a c b, 0 < p → 0 < c → parentOf c = p →
          s.queue.dropLast[parentOf p]? = some a →
          s.queue.dropLast[c]? = some b → cmp a b ≤ 0 := by
        intro a c b h0 hc hpc hpa hcb
        have hcl : c < s.queue.length - 1 := by
          have := (List.getElem?_eq_some_iff.mp hcb).1
          omega
        rw [hq1get c hcl] at hcb
        rw [hq1get (parentOf p) (by have := parentOf_lt h0; omega)] at hpa
        have h1 : cmp a item ≤ 0 := hheap p a item h0 hpa hmem
        have h2 : cmp item b ≤ 0 := by
          refine hheap c item b hc ?_ hcb
          rw [hpc]
          exact hmem
        exact hL.le_trans a item b h1 h2
      obtain ⟨q2, ix2, heq1, hlen1, hitem1, hle1, hdisj1⟩ :=
        siftUpLoop_main hL lastItem (p + 1) p s.queue.dropLast s.index
          (by omega) (by omega) hB1 hD1
      have hq2_only : ∀ j : Nat, q2[j]? ≠ some item :=
        siftUpLoop_not_mem hlastne (p + 1) p s.queue.dropLast s.index q2 ix2
          hq1_only heq1
      rcases hdisj1 with ⟨hq2eq, hix2eq, hbreak⟩ | ⟨hheap2, hlt1⟩
      · -- the moved element did not relocate upward: sift down instead
        have hix2last : ix2 lastItem = p := by rw [hix2eq, setIx_self]
        have hB2 : HeapExcept cmp q2 p := by
          rw [hq2eq]
          exact heapExcept_set_hole lastItem hB1
        have hP2 : ∀ a, 0 < p → q2[parentOf p]? = some a → cmp a lastItem ≤ 0 := by
          intro a h0 hpa
          have hplt := parentOf_lt h0
          rw [hq2eq, List.getElem?_set_ne (by omega : p ≠ parentOf p)] at hpa
          exact hbreak a h0 hpa
        have hD2 : ∀ a c b, 0 < p → 0 < c → parentOf c = p →
            q2[parentOf p]? = some a → q2[c]? = some b → cmp a b ≤ 0 := by
          rw [hq2eq]
          exact holeChildren_set_hole lastItem hD1
        obtain ⟨q3, ix3, heq2, hlen2, hheap3, hitem3, hle3⟩ :=
          siftDownLoop_main hL lastItem (q2.length + 1) p q2 ix2
            (by omega) (by omega) hB2 hP2 hD2
        have hq3_only : ∀ j : Nat, q3[j]? ≠ some item :=
          siftDownLoop_not_mem hlastne (q2.length + 1) p q2 ix2 q3 ix3
            (fun j _ => hq2_only j) heq2
        refine ⟨⟨q3, setIx ix3 item SENTINEL⟩, ?_, hheap3, ?_, ?_, ?_⟩
        · simp only [remove, hix, siftUp, siftDown]
          rw [if_neg hpnes, if_neg hnle, if_neg hlast]
          simp only [hlaste, heq1, hix2last, if_pos]
          simp only [heq2]
        · show q3.length = s.queue.length - 1
          rw [hlen2, hlen1, hq1len]
        · exact setIx_self _ _ _
        · intro hmem2
          obtain ⟨j, hj⟩ := List.mem_iff_getElem?.mp hmem2
          exact hq3_only j hj
      · -- the moved element relocated upward: no sift down
        have hne : ix2 lastItem ≠ p := by omega
        refine ⟨⟨q2, setIx ix2 item SENTINEL⟩, ?_, hheap2, ?_, ?_, ?_⟩
        · simp only [remove, hix, siftUp]
          rw [if_neg hpnes, if_neg hnle, if_neg hlast]
          simp only [hlaste, heq1]
          rw [if_neg hne]
        · show q2.length = s.queue.length - 1
          rw [hlen1, hq1len]
        · exact setIx_self _ _ _
        · intro hmem2
          obtain ⟨j, hj⟩ := List.mem_iff_getElem?.mp hmem2
          exact hq2_only j hj

/-- C5 witness: removing the unqueued item `9` fails with `NotQueued`;
removing the root item `1` from the two-element heap `[1, 2]` succeeds,
leaves a one-element heap, resets the position and expels the item. -/
theorem c5_remove_spec_witness :
    remove cmpNat ⟨[1, 2], fun t => if t = 1 then 0 else if t = 2 then 1 else SENTINEL⟩ 9
      = some (.error .notQueued) ∧
    ∃ s2 : PQ Nat,
      remove cmpNat ⟨[1, 2], fun t => if t = 1 then 0 else if t = 2 then 1 else SENTINEL⟩ 1
        = some (.ok s2) ∧
      IsHeap cmpNat s2.queue ∧
      s2.queue.length = 1 ∧
      s2.index 1 = SENTINEL ∧
      1 ∉ s2.queue := by
  constructor
  · exact (c5_remove_spec cmpNat_linear _ 9).1 rfl
  · exact (c5_remove_spec cmpNat_linear _ 1).2 0 rfl (by decide) (by decide) rfl
      (isHeap_pair (by decide)) (by decide)

/-! ## Claims about the observed off-by-one slips

`push` appends the new item at index `old size` but then calls
`siftUp(queue.size(), item)` after `push_back`, i.e. sifts from
`old size + 1`, whose write `queue[currentIndex] = ...` is one past the end
of the vector.  `pop` reads `queue[queue.size()]`, also one past the end.
Both runs end in undefined behaviour (`none`). -/

/-- C1: claimed sorted extraction already fails at N = 1: the single `push`
into the empty queue succeeds, but the following `pop` reads
`queue[queue.size()]`, one past the end, instead of returning the pushed
item. -/
theorem c1_push_then_pop_out_of_bounds :
    (push cmpNat 100 emptyPQNat 1).map Prod.fst = some (.ok ()) ∧
    ((push cmpNat 100 emptyPQNat 1).bind fun r => pop cmpNat r.2) = none :=
  ⟨rfl, rfl⟩

/-- C2: the invariants cannot hold after every operation sequence, because a
`push` into the non-empty queue `[2]` (its precondition satisfied) sifts from
index `queue.size()` after `push_back` and writes out of bounds: no
well-defined post-state exists. -/
theorem c2_second_push_destroys_state :
    push cmpNat 50 ⟨[2], setIx (fun _ => SENTINEL) 2 0⟩ 9 = none :=
  rfl

/-- C3: `push` onto the one-element queue `[5]` appends `3` at index `1` (the
old size) but sifts up from index `2 = queue.size()` after `push_back`, so
the first sift write `queue[2] = ...` is out of bounds — not a sift from the
appended index. -/
theorem c3_push_sifts_from_wrong_index :
    push cmpNat 100 ⟨[5], setIx (fun _ => SENTINEL) 5 0⟩ 3 = none :=
  rfl

/-- C4: `pop` on the non-empty queue `[7]` reads `queue[queue.size()]` — one
past the last element — instead of the last element, and hits undefined
behaviour instead of returning the saved root `7`. -/
theorem c4_pop_reads_past_the_end :
    pop cmpNat ⟨[7], setIx (fun _ => SENTINEL) 7 0⟩ = none :=
  rfl

/-- C6: with maximum capacity `2` the first push succeeds, but the second of
the first `k = 2` pushes does not: it hits the out-of-bounds sift write
rather than succeeding (the capacity check itself throws before any mutation,
but "the first k pushes succeed" fails for every k ≥ 2). -/
theorem c6_second_of_two_pushes_fails :
    (push cmpNat 2 emptyPQNat 4).map Prod.fst = some (.ok ()) ∧
    ((push cmpNat 2 emptyPQNat 4).bind fun r => push cmpNat 2 r.2 6) = none :=
  ⟨rfl, rfl⟩

/-- The capacity check itself is sound: with maximum capacity `0` every push
on the empty queue fails with `CapacityExceeded` and leaves the state
unchanged, since the throw precedes any mutation. -/
theorem push_capacity_zero {T : Type} [DecidableEq T] (cmp : T → T → Int) (s : PQ T)
    (item : T) (h : s.queue.length = 0) :
    push cmp 0 s item = some (.error .capacityExceeded, s) := by
  simp [push, h]

/-- C7: `pop` and `top` fail with `EmptyQueue`, leaving the state unchanged,
exactly when the queue is empty (`size == 0`), whether freshly constructed or
drained. -/
theorem c7_empty_queue_failure {T : Type} [DecidableEq T] (cmp : T → T → Int) (s : PQ T) :
    (pop cmp s = some (.error .emptyQueue, s) ↔ s.queue.length = 0) ∧
    (top s = some (.error .emptyQueue, s) ↔ s.queue.length = 0) := by
  refine ⟨?_, ?_⟩ <;> by_cases h : s.queue.length = 0
  · simp [pop, h]
  · obtain ⟨a, ha⟩ : ∃ a, s.queue[0]? = some a := by
      cases hq : s.queue[0]? with
      | none => exact absurd (List.getElem?_eq_none_iff.mp hq) (by omega)
      | some a => exact ⟨a, rfl⟩
    have hn : s.queue[s.queue.length]? = none := List.getElem?_eq_none (Nat.le_refl _)
    simp [pop, h, ha, hn]
  · simp [top, h]
  · obtain ⟨a, ha⟩ : ∃ a, s.queue[0]? = some a := by
      cases hq : s.queue[0]? with
      | none => exact absurd (List.getElem?_eq_none_iff.mp hq) (by omega)
      | some a => exact ⟨a, rfl⟩
    simp [top, h, ha]

/-- C7 witness: the freshly constructed empty queue. -/
theorem c7_empty_queue_failure_witness :
    (pop cmpNat emptyPQNat = some (.error .emptyQueue, emptyPQNat) ↔
      emptyPQNat.queue.length = 0) ∧
    (top emptyPQNat = some (.error .emptyQueue, emptyPQNat) ↔
      emptyPQNat.queue.length = 0) :=
  c7_empty_queue_failure cmpNat emptyPQNat

/-- C9: through the `const` accessor, `Get` on an item with no entry in the
mapping yields the sentinel rather than failing, and `Set` inserts or
overwrites the entry, visible to every subsequent `Get` on an equal item. -/
theorem c9_get_absent_set_visible {T : Type} [DecidableEq T]
    (m : NonIntrusiveIndexFunction T) (item : T) (v : Nat) :
    (findEntry m.indexMap item = none → getPos m item = SENTINEL) ∧
    getPos (setPos m item v) item = v := by
  constructor
  · intro h
    simp [getPos, h]
  · simp [getPos, setPos, findEntry_storeEntry_self]

/-- C9 witness: the empty mapping, then storing position `7` for item `5`. -/
theorem c9_get_absent_set_visible_witness :
    getPos emptyNI 5 = SENTINEL ∧ getPos (setPos emptyNI 5 7) 5 = 7 :=
  ⟨(c9_get_absent_set_visible emptyNI 5 7).1 rfl,
    (c9_get_absent_set_visible emptyNI 5 7).2⟩

/-- C10: the mutable call operator used by the engine default-inserts an
entry with position `0` for an absent item and returns it, so through the
engine's non-const accessor an unqueued absent item reads as `0`, not the
sentinel — and the `insertOrUpdate` guard therefore selects the `update`
branch, not `push`. -/
theorem c10_mutable_access_default_inserts_zero {T : Type} [DecidableEq T]
    (m : NonIntrusiveIndexFunction T) (item : T)
    (h : findEntry m.indexMap item = none) :
    (accessPos m item).1 = 0 ∧
    findEntry (accessPos m item).2.indexMap item = some 0 ∧
    (insertOrUpdateGuard m item).1 = false := by
  refine ⟨?_, ?_, ?_⟩
  · simp [accessPos, h]
  · simp [accessPos, h, findEntry_storeEntry_self]
  · simp [insertOrUpdateGuard, accessPos, h, SENTINEL]

/-- C10 witness: an item absent from the empty mapping. -/
theorem c10_mutable_access_default_inserts_zero_witness :
    (accessPos emptyNI 3).1 = 0 ∧
    findEntry (accessPos emptyNI 3).2.indexMap 3 = some 0 ∧
    (insertOrUpdateGuard emptyNI 3).1 = false :=
  c10_mutable_access_default_inserts_zero emptyNI 3 rfl

end DynamicPriorityQueue
